/-
Verification of the Othello rules engine (src/domain/rules.ts) and the
move-log replay/validation layer (src/app/gameState.ts) against its
natural-language specification.

The TypeScript source is shallowly embedded: boards are total functions
from coordinates to cell states, loops become folds or fuel-bounded
recursion, and fallible operations return explicit result types.
-/
import Mathlib

namespace Othello

/-- Piece color, as in `types.ts` (`'BLACK' | 'WHITE'`). -/
inductive PieceColor where
  | BLACK
  | WHITE
deriving DecidableEq, Repr

/-- Cell state: empty (`null`) or a piece. -/
abbrev CellState := Option PieceColor

/-- 8×8 board, `board r c` is the cell at row `r`, column `c` (row-major). -/
abbrev Board := Fin 8 → Fin 8 → CellState

/-- A direction offset, as in `rules.ts` (`interface Direction`). -/
structure Direction where
  row : Int
  col : Int
deriving DecidableEq, Repr

/-- The 8 compass directions, in the order listed in `rules.ts`. -/
def DIRECTIONS : List Direction :=
  [⟨-1, -1⟩, ⟨-1, 0⟩, ⟨-1, 1⟩, ⟨0, -1⟩, ⟨0, 1⟩, ⟨1, -1⟩, ⟨1, 0⟩, ⟨1, 1⟩]

/-- `createInitialBoard` from `rules.ts`: all empty except the center 2×2. -/
def createInitialBoard : Board := fun r c =>
  if r = 3 ∧ c = 3 then some PieceColor.WHITE
  else if r = 3 ∧ c = 4 then some PieceColor.BLACK
  else if r = 4 ∧ c = 3 then some PieceColor.BLACK
  else if r = 4 ∧ c = 4 then some PieceColor.WHITE
  else none

/-- `isValidPosition` from `rules.ts`: coordinates within `0..7`. -/
def isValidPosition (r c : Int) : Prop :=
  0 ≤ r ∧ r < 8 ∧ 0 ≤ c ∧ c < 8

instance (r c : Int) : Decidable (isValidPosition r c) := by
  unfold isValidPosition; infer_instance

/-- `getOpponentColor` from `rules.ts`. -/
def getOpponentColor (color : PieceColor) : PieceColor :=
  match color with
  | .BLACK => .WHITE
  | .WHITE => .BLACK

/-- Read the board at integer coordinates; reads in the source are always
guarded by `isValidPosition`, out-of-range reads answer `none`. -/
def cellAt (b : Board) (r c : Int) : CellState :=
  if h : isValidPosition r c then
    b ⟨r.toNat, by obtain ⟨h1, h2, h3, h4⟩ := h; omega⟩
      ⟨c.toNat, by obtain ⟨h1, h2, h3, h4⟩ := h; omega⟩
  else none

/-- Write the board at integer coordinates; a write at an out-of-range
position (never performed by the source) leaves the board unchanged. -/
def setCell (b : Board) (r c : Int) (v : CellState) : Board :=
  fun i j => if ((i : Nat) : Int) = r ∧ ((j : Nat) : Int) = c then v else b i j

/-- The `while` loop of `checkDirection`: collect the contiguous run of
opponent pieces starting at `(r, c)` and stepping by `(dr, dc)`; returns the
collected positions together with the loop's final coordinates.  The fuel
only bounds recursion; 16 is never exhausted on an 8×8 board. -/
def collectRun (b : Board) (opp : PieceColor) (dr dc : Int) :
    Nat → Int → Int → List (Int × Int) × Int × Int
  | 0, r, c => ([], r, c)
  | fuel + 1, r, c =>
    if isValidPosition r c ∧ cellAt b r c = some opp then
      let res := collectRun b opp dr dc fuel (r + dr) (c + dc)
      ((r, c) :: res.1, res.2)
    else ([], r, c)

/-- `checkDirection` from `rules.ts`: positions flipped by playing `color`
at `(row, col)` in direction `d`, or `[]` if the direction does not
qualify. -/
def checkDirection (b : Board) (row col : Int) (color : PieceColor)
    (d : Direction) : List (Int × Int) :=
  let opp := getOpponentColor color
  let r0 := row + d.row
  let c0 := col + d.col
  if ¬ isValidPosition r0 c0 ∨ ¬ cellAt b r0 c0 = some opp then []
  else
    let res := collectRun b opp d.row d.col 16 r0 c0
    if isValidPosition res.2.1 res.2.2 ∧ cellAt b res.2.1 res.2.2 = some color
    then res.1
    else []

/-- `isLegalMove` from `rules.ts`: the cell is empty, in range, and some
direction flips at least one piece. -/
def isLegalMove (b : Board) (row col : Int) (color : PieceColor) : Bool :=
  if ¬ isValidPosition row col ∨ ¬ cellAt b row col = none then false
  else DIRECTIONS.any fun d =>
    decide ((checkDirection b row col color d).length > 0)

/-- `getLegalMoves` from `rules.ts`: row-major scan of all 64 cells. -/
def getLegalMoves (b : Board) (color : PieceColor) : List (Int × Int) :=
  (List.range 8).flatMap fun row : Nat =>
    (List.range 8).filterMap fun col : Nat =>
      if isLegalMove b (row : Int) (col : Int) color
      then some ((row : Int), (col : Int))
      else none

/-- `GameState` from `types.ts`. -/
structure GameState where
  board : Board
  nextTurnColor : PieceColor
  isFinished : Bool
deriving DecidableEq

/-- `ApplyMoveResult` from `types.ts`. -/
inductive ApplyMoveResult where
  | success (newState : GameState)
  | failure (error : String)
deriving DecidableEq

/-- `applyMove` from `rules.ts`: validate, place the piece, flip every
qualifying run — all runs computed against the original board `b`. -/
def applyMove (b : Board) (color : PieceColor) (row col : Int) :
    ApplyMoveResult :=
  if ¬ isValidPosition row col then .failure "Invalid position"
  else if ¬ isLegalMove b row col color then .failure "Illegal move"
  else
    let b1 := setCell b row col (some color)
    let b2 := DIRECTIONS.foldl (fun acc d =>
      (checkDirection b row col color d).foldl
        (fun acc2 p => setCell acc2 p.1 p.2 (some color)) acc) b1
    .success ⟨b2, getOpponentColor color, false⟩

/-- `canPass` from `rules.ts`: no legal moves. -/
def canPass (b : Board) (color : PieceColor) : Bool :=
  (getLegalMoves b color).length == 0

/-- `isGameFinished` from `rules.ts`: full board, or neither the current
nor the previous mover has a legal move. -/
def isGameFinished (b : Board) (currentTurnColor previousTurnColor : PieceColor) :
    Bool :=
  let isEmpty := (List.finRange 8).any fun r =>
    (List.finRange 8).any fun c => decide (b r c = none)
  if ¬ isEmpty then true
  else
    let currentCanMove := decide ((getLegalMoves b currentTurnColor).length > 0)
    let previousCanMove := decide ((getLegalMoves b previousTurnColor).length > 0)
    !currentCanMove && !previousCanMove

/-- `GameResult` from `types.ts`. -/
structure GameResult where
  blackCount : Nat
  whiteCount : Nat
  winner : Option PieceColor
deriving DecidableEq, Repr

/-- The counter update of `computeGameResult`'s loop body. -/
def countStep (acc : Nat × Nat) (cell : CellState) : Nat × Nat :=
  match cell with
  | some .BLACK => (acc.1 + 1, acc.2)
  | some .WHITE => (acc.1, acc.2 + 1)
  | none => acc

/-- `computeGameResult` from `rules.ts`: count pieces in a row-major scan,
then compare. -/
def computeGameResult (b : Board) : GameResult :=
  let counts := (List.finRange 8).foldl (fun acc r =>
    (List.finRange 8).foldl (fun acc2 c => countStep acc2 (b r c)) acc) (0, 0)
  let winner :=
    if counts.1 > counts.2 then some PieceColor.BLACK
    else if counts.2 > counts.1 then some PieceColor.WHITE
    else none
  ⟨counts.1, counts.2, winner⟩

/-- `Move` from `types.ts`.  `row`/`col` are `null` exactly on passes
(structural well-formedness is owed by callers). -/
structure Move where
  moveNumber : Nat
  color : PieceColor
  row : Option Int
  col : Option Int
  isPass : Bool
deriving DecidableEq, Repr

/-- The loop body of `recomputeBoardFromMoves`: state is
`(board, currentTurnColor)`. -/
def recomputeStep (s : Board × PieceColor) (m : Move) : Board × PieceColor :=
  if m.isPass then (s.1, getOpponentColor s.2)
  else
    match m.row, m.col with
    | some r, some c =>
      match applyMove s.1 m.color r c with
      | .success st => (st.board, st.nextTurnColor)
      | .failure _ => s
    | _, _ => s

/-- `recomputeBoardFromMoves` from `rules.ts`: fold the moves over the
initial board, silently skipping entries whose application fails. -/
def recomputeBoardFromMoves (moves : List Move) : Board :=
  (moves.foldl recomputeStep (createInitialBoard, PieceColor.BLACK)).1

/-- Failure of validated replay: the spec's error kinds, each naming the
1-based index of the offending move.  `IllegalMoveAt` carries the message
propagated from `applyMove` (also used when a non-pass move has a `null`
position). -/
inductive ReplayFailure where
  | TurnMismatch (index : Nat) (expected actual : PieceColor)
  | InvalidPassClaim (index : Nat)
  | IllegalMoveAt (index : Nat) (message : String)
deriving DecidableEq, Repr

/-- Modelled from the spec: `recomputeBoardFromMovesValidated` is imported
by `gameState.ts` from `domain/rules` but its definition is missing from
the provided sources (only its callers and tests are present).  Following
§4.4: for the `i`-th move (1-based), (a) check `move.color` against the
expected alternating color, (b) verify `canPass` for a pass (board
unchanged), (c) otherwise require a non-null position and apply
`applyMove`, adopting the new board; fail fast on the first violation;
`expectedColor` flips after every accepted entry. -/
def replayValidatedAux : List Move → Board → PieceColor → Nat →
    Except ReplayFailure Board
  | [], board, _, _ => .ok board
  | m :: rest, board, expected, i =>
    if m.color ≠ expected then
      .error (.TurnMismatch i expected m.color)
    else if m.isPass then
      if canPass board expected then
        replayValidatedAux rest board (getOpponentColor expected) (i + 1)
      else .error (.InvalidPassClaim i)
    else
      match m.row, m.col with
      | some r, some c =>
        match applyMove board expected r c with
        | .success st =>
          replayValidatedAux rest st.board (getOpponentColor expected) (i + 1)
        | .failure msg => .error (.IllegalMoveAt i msg)
      | _, _ => .error (.IllegalMoveAt i "Position is null")

/-- Modelled from the spec: validated replay starts from the standard
initial board with `expectedColor = Black` and index 1. -/
def recomputeBoardFromMovesValidated (moves : List Move) :
    Except ReplayFailure Board :=
  replayValidatedAux moves createInitialBoard PieceColor.BLACK 1

/-- `deriveNextTurnColor` from `gameState.ts`. -/
def deriveNextTurnColor (moves : List Move) : PieceColor :=
  match moves.getLast? with
  | none => .BLACK
  | some lastMove => if lastMove.color = .BLACK then .WHITE else .BLACK

/-- `derivePreviousTurnColor` from `gameState.ts`. -/
def derivePreviousTurnColor (moves : List Move) : PieceColor :=
  match moves.getLast? with
  | none => .WHITE
  | some lastMove => lastMove.color

/-- `createGameStateFromBoard` from `gameState.ts`. -/
def createGameStateFromBoard (board : Board) (moves : List Move) : GameState :=
  { board := board
    nextTurnColor := deriveNextTurnColor moves
    isFinished := isGameFinished board (deriveNextTurnColor moves)
      (derivePreviousTurnColor moves) }

/-- Spec-side description of one step of a live session: on a pass the
board is unchanged and the turn flips; otherwise the session applies the
move at its own current turn color via `applyMove` and adopts the result
(a live session only ever records moves its engine accepted, so the
fallback branches are unreachable on valid logs). -/
def liveStepValid (s : Board × PieceColor) (m : Move) : Board × PieceColor :=
  if m.isPass then (s.1, getOpponentColor s.2)
  else
    match m.row, m.col with
    | some r, some c =>
      match applyMove s.1 s.2 r c with
      | .success st => (st.board, st.nextTurnColor)
      | .failure _ => s
    | _, _ => s

/-- Spec-side validity of a log from state `(b, e)`: every entry is
turn-consistent and legal by construction — passes only when `canPass`,
non-pass moves succeed via `applyMove`. -/
def validFrom (b : Board) (e : PieceColor) : List Move → Bool
  | [] => true
  | m :: rest =>
    if m.color ≠ e then false
    else if m.isPass then
      canPass b e && validFrom b (getOpponentColor e) rest
    else
      match m.row, m.col with
      | some r, some c =>
        match applyMove b e r c with
        | .success st => validFrom st.board (getOpponentColor e) rest
        | .failure _ => false
      | _, _ => false

/-- Spec-side count of the cells holding a piece of color `col`. -/
def cellColorCount (b : Board) (col : PieceColor) : Nat :=
  ∑ p : Fin 8 × Fin 8, if b p.1 p.2 = some col then 1 else 0

/-- Spec-side count of the occupied cells. -/
def occupiedCount (b : Board) : Nat :=
  ∑ p : Fin 8 × Fin 8, if b p.1 p.2 ≠ none then 1 else 0

/-- The expected alternating color at 1-based move index `i`: Black at odd
indices, White at even indices. -/
def expectedColorAt (i : Nat) : PieceColor :=
  if i % 2 = 1 then .BLACK else .WHITE

/-! ### Basic lemmas about cells and board updates -/

theorem getOpponentColor_ne (c : PieceColor) : getOpponentColor c ≠ c := by
  cases c <;> simp [getOpponentColor]

theorem cellAt_eq_some_valid {b : Board} {r c : Int} {x : PieceColor}
    (h : cellAt b r c = some x) : isValidPosition r c := by
  by_contra hv
  simp [cellAt, hv] at h

theorem cellAt_coe (b : Board) (i j : Fin 8) :
    cellAt b ((i : Nat) : Int) ((j : Nat) : Int) = b i j := by
  have hv : isValidPosition ((i : Nat) : Int) ((j : Nat) : Int) :=
    ⟨by omega, by exact_mod_cast i.isLt, by omega, by exact_mod_cast j.isLt⟩
  rw [cellAt, dif_pos hv]
  congr 1

theorem setCell_apply (b : Board) (r c : Int) (v : CellState) (i j : Fin 8) :
    setCell b r c v i j =
      if ((i : Nat) : Int) = r ∧ ((j : Nat) : Int) = c then v else b i j := rfl

theorem cellAt_setCell_self {r c : Int} (h : isValidPosition r c)
    (b : Board) (v : CellState) : cellAt (setCell b r c v) r c = v := by
  have h1 := h.1
  have h3 := h.2.2.1
  rw [cellAt, dif_pos h, setCell_apply]
  exact if_pos ⟨show ((r.toNat : Nat) : Int) = r by omega,
                show ((c.toNat : Nat) : Int) = c by omega⟩

theorem cellAt_setCell_other {r c r' c' : Int} (h : ¬(r' = r ∧ c' = c))
    (b : Board) (v : CellState) :
    cellAt (setCell b r c v) r' c' = cellAt b r' c' := by
  by_cases hv : isValidPosition r' c'
  · have h1 := hv.1
    have h3 := hv.2.2.1
    rw [cellAt, cellAt, dif_pos hv, dif_pos hv, setCell_apply]
    apply if_neg
    rintro ⟨hr, hc⟩
    have hr' : ((r'.toNat : Nat) : Int) = r := hr
    have hc' : ((c'.toNat : Nat) : Int) = c := hc
    exact h ⟨by omega, by omega⟩
  · simp [cellAt, hv]

theorem cellAt_setCell (b : Board) (r c : Int) (v : CellState) (r' c' : Int) :
    cellAt (setCell b r c v) r' c' =
      if isValidPosition r' c' ∧ r' = r ∧ c' = c then v else cellAt b r' c' := by
  by_cases he : r' = r ∧ c' = c
  · obtain ⟨rfl, rfl⟩ := he
    by_cases hv : isValidPosition r' c'
    · rw [if_pos ⟨hv, rfl, rfl⟩, cellAt_setCell_self hv]
    · rw [if_neg (fun hc => hv hc.1)]
      simp [cellAt, hv]
  · rw [if_neg (fun hc => he ⟨hc.2.1, hc.2.2⟩), cellAt_setCell_other he]

/-- Painting a list of positions with `v`: the inner flip loop of
`applyMove`. -/
theorem cellAt_paint (v : CellState) :
    ∀ (ps : List (Int × Int)) (b : Board) (r c : Int),
      cellAt (ps.foldl (fun acc p => setCell acc p.1 p.2 v) b) r c =
        if (r, c) ∈ ps ∧ isValidPosition r c then v else cellAt b r c := by
  intro ps
  induction ps with
  | nil => intro b r c; simp
  | cons p rest ih =>
    obtain ⟨p1, p2⟩ := p
    intro b r c
    rw [List.foldl_cons, ih, cellAt_setCell]
    by_cases hp : r = p1 ∧ c = p2
    · obtain ⟨rfl, rfl⟩ := hp
      by_cases hv : isValidPosition r c
      · simp [hv, List.mem_cons]
      · simp [hv, List.mem_cons]
    · simp [List.mem_cons, Prod.mk.injEq, hp]

/-- The outer flip loop of `applyMove`, over a list of directions. -/
theorem cellAt_paintDirs (v : CellState) (f : Direction → List (Int × Int)) :
    ∀ (ds : List Direction) (b : Board) (r c : Int),
      cellAt (ds.foldl (fun acc d =>
          (f d).foldl (fun acc2 p => setCell acc2 p.1 p.2 v) acc) b) r c =
        if (∃ d ∈ ds, (r, c) ∈ f d) ∧ isValidPosition r c then v
        else cellAt b r c := by
  intro ds
  induction ds with
  | nil => intro b r c; simp
  | cons d rest ih =>
    intro b r c
    rw [List.foldl_cons, ih, cellAt_paint]
    by_cases hv : isValidPosition r c
    · by_cases hrest : ∃ d' ∈ rest, (r, c) ∈ f d'
      · rw [if_pos ⟨hrest, hv⟩, if_pos]
        obtain ⟨d', hd', hm⟩ := hrest
        exact ⟨⟨d', List.mem_cons_of_mem _ hd', hm⟩, hv⟩
      · rw [if_neg (fun hc => hrest hc.1)]
        by_cases hd : (r, c) ∈ f d
        · rw [if_pos ⟨hd, hv⟩, if_pos ⟨⟨d, List.mem_cons_self d rest, hd⟩, hv⟩]
        · rw [if_neg (fun hc => hd hc.1), if_neg]
          rintro ⟨⟨d', hd', hm⟩, -⟩
          rcases List.mem_cons.mp hd' with rfl | h'
          · exact hd hm
          · exact hrest ⟨d', h', hm⟩
    · rw [if_neg (fun hc => hv hc.2), if_neg (fun hc => hv hc.2),
        if_neg (fun hc => hv hc.2)]

/-! ### Characterization of the direction scan -/

/-- Spec-side description of the positions a qualifying run flips:
the `n` cells adjacent to the target in direction `d`. -/
def runPositions (row col : Int) (d : Direction) (n : Nat) : List (Int × Int) :=
  (List.range n).map fun k : Nat => (row + ((k : Int) + 1) * d.row, col + ((k : Int) + 1) * d.col)

/-- Spec-side qualifying run: `n` contiguous opponent pieces starting
adjacent to the target in direction `d`, terminated (within bounds) by a
piece of the mover's color. -/
def runSpec (b : Board) (row col : Int) (color : PieceColor) (d : Direction)
    (n : Nat) : Prop :=
  (∀ k : Nat, k < n →
    cellAt b (row + ((k : Int) + 1) * d.row) (col + ((k : Int) + 1) * d.col) =
      some (getOpponentColor color))
  ∧ cellAt b (row + ((n : Int) + 1) * d.row) (col + ((n : Int) + 1) * d.col) =
      some color

instance (b : Board) (row col : Int) (color : PieceColor) (d : Direction)
    (n : Nat) : Decidable (runSpec b row col color d n) := by
  unfold runSpec; infer_instance

theorem collectRun_mem (b : Board) (opp : PieceColor) (dr dc : Int) :
    ∀ (fuel : Nat) (r c : Int) (p : Int × Int),
      p ∈ (collectRun b opp dr dc fuel r c).1 →
      cellAt b p.1 p.2 = some opp := by
  intro fuel
  induction fuel with
  | zero => intro r c p hp; simp [collectRun] at hp
  | succ f ih =>
    intro r c p hp
    rw [collectRun] at hp
    split at hp
    · rename_i hcond
      rcases List.mem_cons.mp hp with rfl | hmem
      · exact hcond.2
      · exact ih _ _ p hmem
    · simp at hp

/-- With enough fuel, the collection loop returns exactly the cells of the
maximal opponent run and stops at the first non-opponent position. -/
theorem collectRun_run (b : Board) (opp : PieceColor) (dr dc : Int) :
    ∀ (n fuel : Nat) (r c : Int), n < fuel →
      (∀ k : Nat, k < n →
        cellAt b (r + (k : Int) * dr) (c + (k : Int) * dc) = some opp) →
      cellAt b (r + (n : Int) * dr) (c + (n : Int) * dc) ≠ some opp →
      collectRun b opp dr dc fuel r c =
        ((List.range n).map fun k : Nat => (r + (k : Int) * dr, c + (k : Int) * dc),
          r + (n : Int) * dr, c + (n : Int) * dc) := by
  intro n
  induction n with
  | zero =>
    intro fuel r c hf hall hstop
    obtain ⟨f, rfl⟩ : ∃ f, fuel = f + 1 := ⟨fuel - 1, by omega⟩
    rw [collectRun, if_neg]
    · simp
    · rintro ⟨-, hcell⟩
      apply hstop
      simpa using hcell
  | succ m ih =>
    intro fuel r c hf hall hstop
    obtain ⟨f, rfl⟩ : ∃ f, fuel = f + 1 := ⟨fuel - 1, by omega⟩
    have hcell : cellAt b r c = some opp := by simpa using hall 0 (by omega)
    have hvalid : isValidPosition r c := cellAt_eq_some_valid hcell
    rw [collectRun, if_pos ⟨hvalid, hcell⟩]
    have hall' : ∀ k : Nat, k < m →
        cellAt b (r + dr + (k : Int) * dr) (c + dc + (k : Int) * dc) = some opp := by
      intro k hk
      have heq1 : r + ((k : Int) + 1) * dr = r + dr + (k : Int) * dr := by ring
      have heq2 : c + ((k : Int) + 1) * dc = c + dc + (k : Int) * dc := by ring
      have := hall (k + 1) (by omega)
      push_cast at this
      rw [heq1, heq2] at this
      exact this
    have hstop' :
        cellAt b (r + dr + (m : Int) * dr) (c + dc + (m : Int) * dc) ≠ some opp := by
      have heq1 : r + ((m : Int) + 1) * dr = r + dr + (m : Int) * dr := by ring
      have heq2 : c + ((m : Int) + 1) * dc = c + dc + (m : Int) * dc := by ring
      have := hstop
      push_cast at this
      rw [heq1, heq2] at this
      exact this
    rw [ih f (r + dr) (c + dc) (by omega) hall' hstop']
    simp only [Prod.mk.injEq]
    refine ⟨?_, by push_cast; ring, by push_cast; ring⟩
    rw [List.range_succ_eq_map, List.map_cons, List.map_map]
    have hfun : ((fun k : Nat => (r + (k : Int) * dr, c + (k : Int) * dc)) ∘ Nat.succ)
        = fun k : Nat => (r + dr + (k : Int) * dr, c + dc + (k : Int) * dc) := by
      funext k
      simp only [Function.comp_apply, Prod.mk.injEq]
      constructor <;> (push_cast; ring)
    rw [hfun]
    simp

/-- Whatever the fuel, the collection loop returns some initial opponent
run together with the position just past it. -/
theorem collectRun_exists (b : Board) (opp : PieceColor) (dr dc : Int) :
    ∀ (fuel : Nat) (r c : Int), ∃ n : Nat,
      (collectRun b opp dr dc fuel r c).1 =
        ((List.range n).map fun k : Nat => (r + (k : Int) * dr, c + (k : Int) * dc))
      ∧ (collectRun b opp dr dc fuel r c).2 = (r + (n : Int) * dr, c + (n : Int) * dc)
      ∧ (∀ k : Nat, k < n →
          cellAt b (r + (k : Int) * dr) (c + (k : Int) * dc) = some opp) := by
  intro fuel
  induction fuel with
  | zero =>
    intro r c
    exact ⟨0, by simp [collectRun], by simp [collectRun], by omega⟩
  | succ f ih =>
    intro r c
    by_cases hc : isValidPosition r c ∧ cellAt b r c = some opp
    · obtain ⟨n, hlist, hfin, hall⟩ := ih (r + dr) (c + dc)
      refine ⟨n + 1, ?_, ?_, ?_⟩
      · rw [collectRun, if_pos hc, List.range_succ_eq_map, List.map_cons, List.map_map]
        simp only [List.cons.injEq]
        refine ⟨by simp, ?_⟩
        rw [hlist]
        have hfun : ((fun k : Nat => (r + (k : Int) * dr, c + (k : Int) * dc)) ∘ Nat.succ)
            = fun k : Nat => (r + dr + (k : Int) * dr, c + dc + (k : Int) * dc) := by
          funext k
          simp only [Function.comp_apply, Prod.mk.injEq]
          constructor <;> (push_cast; ring)
        rw [hfun]
      · rw [collectRun, if_pos hc]
        simp only [hfin, Prod.mk.injEq]
        constructor <;> (push_cast; ring)
      · intro k hk
        cases k with
        | zero => simpa using hc.2
        | succ j =>
          have hj := hall j (by omega)
          have heq1 : r + dr + (j : Int) * dr = r + ((j : Int) + 1) * dr := by ring
          have heq2 : c + dc + (j : Int) * dc = c + ((j : Int) + 1) * dc := by ring
          rw [heq1, heq2] at hj
          push_cast
          exact hj
    · refine ⟨0, ?_, ?_, by omega⟩
      · rw [collectRun, if_neg hc]; simp
      · rw [collectRun, if_neg hc]; simp

/-- On an 8-wide board, a run of `n` cells all valid in one of the 8
compass directions forces `n ≤ 7`. -/
theorem direction_run_bound {d : Direction} (hd : d ∈ DIRECTIONS)
    {row col : Int} {n : Nat}
    (h1 : isValidPosition (row + 1 * d.row) (col + 1 * d.col))
    (h2 : isValidPosition (row + ((n : Int) + 1) * d.row)
      (col + ((n : Int) + 1) * d.col)) :
    n ≤ 7 := by
  obtain ⟨a1, a2, a3, a4⟩ := h1
  obtain ⟨b1, b2, b3, b4⟩ := h2
  fin_cases hd <;> simp_all <;> omega

/-- Completeness: a qualifying run is found by `checkDirection` and flips
exactly its cells, in order of increasing distance from the target. -/
theorem checkDirection_eq_of_runSpec {b : Board} {row col : Int}
    {color : PieceColor} {d : Direction} {n : Nat}
    (hd : d ∈ DIRECTIONS) (hn : 1 ≤ n) (h : runSpec b row col color d n) :
    checkDirection b row col color d = runPositions row col d n := by
  obtain ⟨hall, hterm⟩ := h
  have hcell0 : cellAt b (row + d.row) (col + d.col) =
      some (getOpponentColor color) := by
    have := hall 0 hn
    simpa using this
  have hval0 : isValidPosition (row + d.row) (col + d.col) :=
    cellAt_eq_some_valid hcell0
  have hvaln : isValidPosition (row + ((n : Int) + 1) * d.row)
      (col + ((n : Int) + 1) * d.col) := cellAt_eq_some_valid hterm
  have hval1 : isValidPosition (row + 1 * d.row) (col + 1 * d.col) := by
    have e1 : row + 1 * d.row = row + d.row := by ring
    have e2 : col + 1 * d.col = col + d.col := by ring
    rw [e1, e2]; exact hval0
  have hbound : n ≤ 7 := direction_run_bound hd hval1 hvaln
  have hall' : ∀ k : Nat, k < n →
      cellAt b (row + d.row + (k : Int) * d.row)
        (col + d.col + (k : Int) * d.col) = some (getOpponentColor color) := by
    intro k hk
    have e1 : row + ((k : Int) + 1) * d.row = row + d.row + (k : Int) * d.row := by
      ring
    have e2 : col + ((k : Int) + 1) * d.col = col + d.col + (k : Int) * d.col := by
      ring
    have := hall k hk
    rw [e1, e2] at this
    exact this
  have hstop : cellAt b (row + d.row + (n : Int) * d.row)
      (col + d.col + (n : Int) * d.col) ≠ some (getOpponentColor color) := by
    have e1 : row + ((n : Int) + 1) * d.row = row + d.row + (n : Int) * d.row := by
      ring
    have e2 : col + ((n : Int) + 1) * d.col = col + d.col + (n : Int) * d.col := by
      ring
    rw [e1, e2] at hterm
    rw [hterm]
    intro hcontra
    have : color = getOpponentColor color := by
      injection hcontra
    exact getOpponentColor_ne color this.symm
  have hrun := collectRun_run b (getOpponentColor color) d.row d.col n 16
    (row + d.row) (col + d.col) (by omega) hall' hstop
  rw [checkDirection]
  simp only
  rw [if_neg (by push_neg; exact ⟨hval0, hcell0⟩)]
  rw [hrun]
  simp only
  rw [if_pos]
  · rw [runPositions]
    have hfun : (fun k : Nat => (row + d.row + (k : Int) * d.row,
        col + d.col + (k : Int) * d.col))
        = fun k : Nat => (row + ((k : Int) + 1) * d.row,
            col + ((k : Int) + 1) * d.col) := by
      funext k
      simp only [Prod.mk.injEq]
      constructor <;> ring
    rw [hfun]
  · constructor
    · have e1 : row + d.row + (n : Int) * d.row =
          row + ((n : Int) + 1) * d.row := by ring
      have e2 : col + d.col + (n : Int) * d.col =
          col + ((n : Int) + 1) * d.col := by ring
      rw [e1, e2]
      exact hvaln
    · have e1 : row + d.row + (n : Int) * d.row =
          row + ((n : Int) + 1) * d.row := by ring
      have e2 : col + d.col + (n : Int) * d.col =
          col + ((n : Int) + 1) * d.col := by ring
      rw [e1, e2]
      exact hterm

/-- Soundness: a non-empty `checkDirection` result is exactly the cell
list of a qualifying run of its length. -/
theorem runSpec_of_checkDirection {b : Board} {row col : Int}
    {color : PieceColor} {d : Direction}
    (hne : checkDirection b row col color d ≠ []) :
    1 ≤ (checkDirection b row col color d).length
    ∧ runSpec b row col color d (checkDirection b row col color d).length
    ∧ checkDirection b row col color d =
        runPositions row col d (checkDirection b row col color d).length := by
  by_cases hg : ¬ isValidPosition (row + d.row) (col + d.col) ∨
      ¬ cellAt b (row + d.row) (col + d.col) = some (getOpponentColor color)
  · exfalso
    apply hne
    rw [checkDirection]
    simp only
    rw [if_pos hg]
  · push_neg at hg
    obtain ⟨hval0, hcell0⟩ := hg
    obtain ⟨n, hlist, hfin, hall⟩ := collectRun_exists b (getOpponentColor color)
      d.row d.col 16 (row + d.row) (col + d.col)
    have hck : checkDirection b row col color d =
        if isValidPosition (collectRun b (getOpponentColor color) d.row d.col 16
              (row + d.row) (col + d.col)).2.1
            (collectRun b (getOpponentColor color) d.row d.col 16
              (row + d.row) (col + d.col)).2.2
          ∧ cellAt b (collectRun b (getOpponentColor color) d.row d.col 16
              (row + d.row) (col + d.col)).2.1
            (collectRun b (getOpponentColor color) d.row d.col 16
              (row + d.row) (col + d.col)).2.2 = some color
        then (collectRun b (getOpponentColor color) d.row d.col 16
          (row + d.row) (col + d.col)).1
        else [] := by
      rw [checkDirection]
      simp only
      rw [if_neg (by push_neg; exact ⟨hval0, hcell0⟩)]
    by_cases hend : isValidPosition (collectRun b (getOpponentColor color)
          d.row d.col 16 (row + d.row) (col + d.col)).2.1
        (collectRun b (getOpponentColor color) d.row d.col 16
          (row + d.row) (col + d.col)).2.2
      ∧ cellAt b (collectRun b (getOpponentColor color) d.row d.col 16
          (row + d.row) (col + d.col)).2.1
        (collectRun b (getOpponentColor color) d.row d.col 16
          (row + d.row) (col + d.col)).2.2 = some color
    · rw [hck, if_pos hend]
      have hlen : (collectRun b (getOpponentColor color) d.row d.col 16
          (row + d.row) (col + d.col)).1.length = n := by
        rw [hlist, List.length_map, List.length_range]
      have hn1 : 1 ≤ n := by
        rcases Nat.eq_zero_or_pos n with rfl | h
        · exfalso
          apply hne
          rw [hck, if_pos hend, hlist]
          simp
        · exact h
      have hendval : isValidPosition (row + d.row + (n : Int) * d.row)
          (col + d.col + (n : Int) * d.col) := by
        have h' := hend.1
        rw [hfin] at h'
        exact h'
      have hendcell : cellAt b (row + d.row + (n : Int) * d.row)
          (col + d.col + (n : Int) * d.col) = some color := by
        have h' := hend.2
        rw [hfin] at h'
        exact h'
      rw [hlen, hlist]
      refine ⟨by omega, ⟨?_, ?_⟩, ?_⟩
      · intro k hk
        have := hall k hk
        have e1 : row + d.row + (k : Int) * d.row =
            row + ((k : Int) + 1) * d.row := by ring
        have e2 : col + d.col + (k : Int) * d.col =
            col + ((k : Int) + 1) * d.col := by ring
        rw [e1, e2] at this
        exact this
      · have e1 : row + d.row + (n : Int) * d.row =
            row + ((n : Int) + 1) * d.row := by ring
        have e2 : col + d.col + (n : Int) * d.col =
            col + ((n : Int) + 1) * d.col := by ring
        rw [e1, e2] at hendcell
        exact hendcell
      · rw [runPositions]
        have hfun : (fun k : Nat => (row + d.row + (k : Int) * d.row,
            col + d.col + (k : Int) * d.col))
            = fun k : Nat => (row + ((k : Int) + 1) * d.row,
                col + ((k : Int) + 1) * d.col) := by
          funext k
          simp only [Prod.mk.injEq]
          constructor <;> ring
        rw [hfun]
    · exfalso
      apply hne
      rw [hck, if_neg hend]

/-! ### Characterization of `isLegalMove` and `applyMove` -/

theorem isLegalMove_iff {b : Board} {row col : Int} {color : PieceColor} :
    isLegalMove b row col color = true ↔
      isValidPosition row col ∧ cellAt b row col = none ∧
        ∃ d ∈ DIRECTIONS, checkDirection b row col color d ≠ [] := by
  rw [isLegalMove]
  by_cases hg : ¬ isValidPosition row col ∨ ¬ cellAt b row col = none
  · rw [if_pos hg]
    simp only [Bool.false_eq_true, false_iff]
    rintro ⟨hval, hcell, -⟩
    rcases hg with hg | hg
    · exact hg hval
    · exact hg hcell
  · rw [if_neg hg]
    push_neg at hg
    simp only [List.any_eq_true, decide_eq_true_eq]
    constructor
    · rintro ⟨d, hd, hlen⟩
      refine ⟨hg.1, hg.2, d, hd, ?_⟩
      intro he
      rw [he] at hlen
      simp at hlen
    · rintro ⟨-, -, d, hd, hne⟩
      refine ⟨d, hd, ?_⟩
      cases hck : checkDirection b row col color d with
      | nil => exact absurd hck hne
      | cons a l => simp [hck]

theorem applyMove_invalid {b : Board} {color : PieceColor} {row col : Int}
    (h : ¬ isValidPosition row col) :
    applyMove b color row col = .failure "Invalid position" := by
  rw [applyMove, if_pos h]

theorem applyMove_illegal {b : Board} {color : PieceColor} {row col : Int}
    (h1 : isValidPosition row col) (h2 : isLegalMove b row col color = false) :
    applyMove b color row col = .failure "Illegal move" := by
  rw [applyMove, if_neg (not_not_intro h1), if_pos (by simp [h2])]

theorem applyMove_success {b : Board} {color : PieceColor} {row col : Int}
    (h1 : isValidPosition row col) (h2 : isLegalMove b row col color = true) :
    applyMove b color row col = .success
      ⟨DIRECTIONS.foldl (fun acc d => (checkDirection b row col color d).foldl
          (fun acc2 p => setCell acc2 p.1 p.2 (some color)) acc)
        (setCell b row col (some color)), getOpponentColor color, false⟩ := by
  rw [applyMove, if_neg (not_not_intro h1), if_neg (by simp [h2])]

/-- Everything the success branch of `applyMove` guarantees, with the
resulting board described cell by cell. -/
theorem applyMove_success_inv {b : Board} {color : PieceColor} {row col : Int}
    {st : GameState} (h : applyMove b color row col = .success st) :
    isValidPosition row col ∧ isLegalMove b row col color = true ∧
    st.nextTurnColor = getOpponentColor color ∧ st.isFinished = false ∧
    ∀ r c : Int, cellAt st.board r c =
      if isValidPosition r c ∧ ((r = row ∧ c = col) ∨
          ∃ d ∈ DIRECTIONS, (r, c) ∈ checkDirection b row col color d)
      then some color else cellAt b r c := by
  have h1 : isValidPosition row col := by
    by_contra h1
    rw [applyMove_invalid h1] at h
    simp at h
  have h2 : isLegalMove b row col color = true := by
    by_contra h2
    rw [applyMove_illegal h1 (by simpa using h2)] at h
    simp at h
  rw [applyMove_success h1 h2] at h
  injection h with hst
  subst hst
  refine ⟨h1, h2, rfl, rfl, ?_⟩
  intro r c
  simp only
  rw [cellAt_paintDirs (some color) (fun d => checkDirection b row col color d)
    DIRECTIONS, cellAt_setCell]
  by_cases hv : isValidPosition r c
  · by_cases hflip : ∃ d ∈ DIRECTIONS, (r, c) ∈ checkDirection b row col color d
    · rw [if_pos ⟨hflip, hv⟩, if_pos ⟨hv, Or.inr hflip⟩]
    · rw [if_neg (fun hc => hflip hc.1)]
      by_cases ht : r = row ∧ c = col
      · rw [if_pos ⟨hv, ht.1, ht.2⟩, if_pos ⟨hv, Or.inl ht⟩]
      · rw [if_neg (fun hc => ht ⟨hc.2.1, hc.2.2⟩), if_neg]
        rintro ⟨-, hor⟩
        rcases hor with hor | hor
        · exact ht hor
        · exact hflip hor
  · rw [if_neg (fun hc => hv hc.2), if_neg (fun hc => hv hc.1),
      if_neg (fun hc => hv hc.1)]

theorem applyMove_success_exists {b : Board} {color : PieceColor}
    {row col : Int} (h2 : isLegalMove b row col color = true) :
    ∃ st, applyMove b color row col = .success st :=
  ⟨_, applyMove_success (isLegalMove_iff.mp h2).1 h2⟩

/-! ### Claim theorems -/

/-- C6: for every board, color, row, and col, `applyMove` fails with kind
`InvalidPosition` exactly when `row` or `col` is outside `0..7`; for
in-range coordinates it fails with kind `IllegalMove` exactly when the
target cell is occupied or no direction yields a non-empty flippable run,
and succeeds otherwise; in particular
`applyMove(createInitialBoard(), Black, 0, 0)` fails with `IllegalMove`. -/
theorem C6_applyMove_error_taxonomy :
    (∀ (b : Board) (color : PieceColor) (row col : Int),
      (applyMove b color row col = .failure "Invalid position" ↔
        ¬ isValidPosition row col)
      ∧ (applyMove b color row col = .failure "Illegal move" ↔
          isValidPosition row col ∧ (cellAt b row col ≠ none ∨
            ∀ d ∈ DIRECTIONS, checkDirection b row col color d = []))
      ∧ (isValidPosition row col → cellAt b row col = none →
          (∃ d ∈ DIRECTIONS, checkDirection b row col color d ≠ []) →
          ∃ st, applyMove b color row col = .success st))
    ∧ applyMove createInitialBoard PieceColor.BLACK 0 0 =
        .failure "Illegal move" := by
  constructor
  · intro b color row col
    by_cases h1 : isValidPosition row col
    · by_cases h2 : isLegalMove b row col color = true
      · obtain ⟨st, hs⟩ := applyMove_success_exists h2
        obtain ⟨hv, hcell, d, hd, hne⟩ := isLegalMove_iff.mp h2
        refine ⟨?_, ?_, ?_⟩
        · rw [hs]
          constructor
          · intro hc; simp at hc
          · intro hc; exact absurd h1 hc
        · rw [hs]
          constructor
          · intro hc; simp at hc
          · rintro ⟨-, hor | hall⟩
            · exact absurd hcell hor
            · exact absurd (hall d hd) hne
        · intro _ _ _
          exact ⟨st, hs⟩
      · have h2' : isLegalMove b row col color = false := by
          simpa using h2
        have hf := applyMove_illegal h1 h2'
        refine ⟨?_, ?_, ?_⟩
        · rw [hf]
          constructor
          · intro hc
            simp only [ApplyMoveResult.failure.injEq] at hc
            exact absurd hc (by decide)
          · intro hc
            exact absurd h1 hc
        · rw [hf]
          constructor
          · intro _
            refine ⟨h1, ?_⟩
            by_cases hcell : cellAt b row col = none
            · refine Or.inr fun d hd => ?_
              by_contra hne
              exact h2 (isLegalMove_iff.mpr ⟨h1, hcell, d, hd, hne⟩)
            · exact Or.inl hcell
          · intro _
            rfl
        · rintro hval hcell ⟨d, hd, hne⟩
          exact absurd (isLegalMove_iff.mpr ⟨hval, hcell, d, hd, hne⟩) h2
    · have hf := @applyMove_invalid b color row col h1
      refine ⟨?_, ?_, ?_⟩
      · rw [hf]
        exact ⟨fun _ => h1, fun _ => rfl⟩
      · rw [hf]
        constructor
        · intro hc
          simp only [ApplyMoveResult.failure.injEq] at hc
          exact absurd hc (by decide)
        · rintro ⟨hv, -⟩
          exact absurd hv h1
      · intro hv
        exact absurd hv h1
  · rfl

/-- Witness for C6 at concrete inputs: the success branch at the legal
opening move `(2,3)` for Black, and the invalid-position branch at row 9. -/
theorem C6_applyMove_error_taxonomy_witness :
    (∃ st, applyMove createInitialBoard PieceColor.BLACK 2 3 = .success st) ∧
    applyMove createInitialBoard PieceColor.BLACK 9 0 =
      .failure "Invalid position" := by
  constructor
  · exact (C6_applyMove_error_taxonomy.1 createInitialBoard .BLACK 2 3).2.2
      (by decide) (by decide) ⟨⟨1, 0⟩, by decide, by decide⟩
  · exact (C6_applyMove_error_taxonomy.1 createInitialBoard .BLACK 9 0).1.mpr
      (by decide)

/-- C5: `isGameFinished` returns true on a full board regardless of either
color's move availability; on a board with at least one empty cell it
returns true iff both the current and the previous mover have zero legal
moves. -/
theorem C5_isGameFinished_spec :
    ∀ (b : Board) (cur prev : PieceColor),
      ((∀ i j : Fin 8, b i j ≠ none) → isGameFinished b cur prev = true)
      ∧ ((∃ i j : Fin 8, b i j = none) →
          (isGameFinished b cur prev = true ↔
            (getLegalMoves b cur).length = 0 ∧
              (getLegalMoves b prev).length = 0)) := by
  intro b cur prev
  have hscan : (((List.finRange 8).any fun r =>
      (List.finRange 8).any fun c => decide (b r c = none)) = true) ↔
      ∃ i j : Fin 8, b i j = none := by
    simp [List.any_eq_true, List.mem_finRange]
  constructor
  · intro hfull
    have hany : ¬ ((List.finRange 8).any fun r =>
        (List.finRange 8).any fun c => decide (b r c = none)) = true := by
      intro hc
      obtain ⟨i, j, hij⟩ := hscan.mp hc
      exact hfull i j hij
    simp only [isGameFinished]
    rw [if_pos hany]
  · intro hex
    simp only [isGameFinished]
    rw [if_neg (not_not_intro (hscan.mpr hex))]
    rw [Bool.and_eq_true, Bool.not_eq_true', Bool.not_eq_true',
      decide_eq_false_iff_not, decide_eq_false_iff_not]
    omega

/-- Witness for C5: a board full of black pieces is finished for any colors,
and on the initial board (which has empty cells) the equivalence applies. -/
theorem C5_isGameFinished_spec_witness :
    isGameFinished (fun _ _ => some PieceColor.BLACK)
      PieceColor.BLACK PieceColor.WHITE = true
    ∧ (isGameFinished createInitialBoard PieceColor.BLACK PieceColor.WHITE = true
        ↔ (getLegalMoves createInitialBoard PieceColor.BLACK).length = 0 ∧
          (getLegalMoves createInitialBoard PieceColor.WHITE).length = 0) :=
  ⟨(C5_isGameFinished_spec _ _ _).1 (fun i j => by simp),
   (C5_isGameFinished_spec _ _ _).2 ⟨0, 0, by decide⟩⟩

/-- C7: for every board `b` and color `c`, `canPass b c` holds iff
`getLegalMoves b c` is empty; and `getLegalMoves` returns exactly the
legal positions, in stable row-major order. -/
theorem C7_canPass_getLegalMoves :
    ∀ (b : Board) (c : PieceColor),
      (canPass b c = true ↔ getLegalMoves b c = [])
      ∧ (∀ p : Int × Int, p ∈ getLegalMoves b c ↔
          isLegalMove b p.1 p.2 c = true)
      ∧ List.Pairwise (fun p q : Int × Int =>
          p.1 < q.1 ∨ (p.1 = q.1 ∧ p.2 < q.2)) (getLegalMoves b c) := by
  intro b c
  have hmem0 : ∀ (rowN colN : Nat) (p : Int × Int),
      p ∈ (if isLegalMove b (rowN : Int) (colN : Int) c
          then some ((rowN : Int), (colN : Int)) else none) →
      p = ((rowN : Int), (colN : Int)) := by
    intro rowN colN p hp
    by_cases hleg : isLegalMove b (rowN : Int) (colN : Int) c = true
    · rw [if_pos hleg, Option.mem_some_iff] at hp
      exact hp.symm
    · rw [if_neg hleg] at hp
      simp at hp
  refine ⟨?_, ?_, ?_⟩
  · rw [canPass, beq_iff_eq, List.length_eq_zero]
  · intro p
    constructor
    · intro hp
      simp only [getLegalMoves, List.mem_flatMap, List.mem_filterMap,
        List.mem_range] at hp
      obtain ⟨rowN, hrow, colN, hcol, hif⟩ := hp
      by_cases hleg : isLegalMove b (rowN : Int) (colN : Int) c = true
      · rw [if_pos hleg, Option.some.injEq] at hif
        rw [← hif]
        exact hleg
      · rw [if_neg hleg] at hif
        simp at hif
    · intro hleg
      have hval := (isLegalMove_iff.mp hleg).1
      obtain ⟨h1, h2, h3, h4⟩ := hval
      simp only [getLegalMoves, List.mem_flatMap, List.mem_filterMap,
        List.mem_range]
      refine ⟨p.1.toNat, by omega, p.2.toNat, by omega, ?_⟩
      have e1 : ((p.1.toNat : Nat) : Int) = p.1 := by omega
      have e2 : ((p.2.toNat : Nat) : Int) = p.2 := by omega
      rw [e1, e2, if_pos hleg, Prod.mk.eta]
  · rw [getLegalMoves, List.pairwise_flatMap]
    constructor
    · intro rowN hrow
      rw [List.pairwise_filterMap]
      apply List.Pairwise.imp ?_ (List.pairwise_lt_range 8)
      intro colA colB hlt pa hpa pb hpb
      rw [hmem0 rowN colA pa hpa, hmem0 rowN colB pb hpb]
      exact Or.inr ⟨rfl, Int.ofNat_lt.mpr hlt⟩
    · apply List.Pairwise.imp ?_ (List.pairwise_lt_range 8)
      intro rowA rowB hlt pa hpa pb hpb
      rw [List.mem_filterMap] at hpa hpb
      obtain ⟨colA, hcolA, hifA⟩ := hpa
      obtain ⟨colB, hcolB, hifB⟩ := hpb
      rw [hmem0 rowA colA pa (by simpa using hifA),
        hmem0 rowB colB pb (by simpa using hifB)]
      exact Or.inl (Int.ofNat_lt.mpr hlt)

/-! ### Counting lemmas for `computeGameResult` -/

theorem sum_flatMap_nat {α : Type} (g : α → List Nat) :
    ∀ l : List α, (l.flatMap g).sum = (l.map fun a => (g a).sum).sum := by
  intro l
  induction l with
  | nil => simp
  | cons x xs ih => simp [List.flatMap_cons, List.sum_append, ih]

theorem foldl_flatMap {α β γ : Type} (f : γ → α → γ) (g : β → List α) :
    ∀ (l : List β) (init : γ),
      (l.flatMap g).foldl f init =
        l.foldl (fun acc x => (g x).foldl f acc) init := by
  intro l
  induction l with
  | nil => intro init; simp
  | cons x xs ih =>
    intro init
    simp [List.flatMap_cons, List.foldl_append, ih]

theorem foldl_countStep :
    ∀ (cells : List CellState) (a1 a2 : Nat),
      cells.foldl countStep (a1, a2) =
        (a1 + (cells.map fun s =>
            if s = some PieceColor.BLACK then 1 else 0).sum,
         a2 + (cells.map fun s =>
            if s = some PieceColor.WHITE then 1 else 0).sum) := by
  intro cells
  induction cells with
  | nil => intro a1 a2; simp
  | cons x xs ih =>
    intro a1 a2
    rw [List.foldl_cons]
    cases x with
    | none =>
      rw [show countStep (a1, a2) none = (a1, a2) from rfl, ih]
      simp
    | some pc =>
      cases pc with
      | BLACK =>
        rw [show countStep (a1, a2) (some PieceColor.BLACK) = (a1 + 1, a2)
          from rfl, ih]
        simp only [List.map_cons, List.sum_cons, Prod.mk.injEq]
        constructor <;> simp <;> omega
      | WHITE =>
        rw [show countStep (a1, a2) (some PieceColor.WHITE) = (a1, a2 + 1)
          from rfl, ih]
        simp only [List.map_cons, List.sum_cons, Prod.mk.injEq]
        constructor <;> simp <;> omega

theorem cellColorCount_eq_sum (b : Board) (col : PieceColor) :
    (((List.finRange 8).flatMap fun r => (List.finRange 8).map (b r)).map
      fun s => if s = some col then 1 else 0).sum = cellColorCount b col := by
  rw [cellColorCount, Fintype.sum_prod_type, List.map_flatMap, sum_flatMap_nat,
    Fin.sum_univ_def]
  have hfun : (fun r : Fin 8 => ((((List.finRange 8).map (b r)).map
      fun s => if s = some col then 1 else 0)).sum)
      = fun r : Fin 8 => ∑ c : Fin 8, if b r c = some col then 1 else 0 := by
    funext r
    rw [List.map_map, Fin.sum_univ_def]
    rfl
  rw [hfun]

/-- C8: `computeGameResult` returns the exact number of Black and White
cells, and the winner is the color with the strictly greater count (no
winner on equal counts). -/
theorem C8_computeGameResult_spec :
    ∀ b : Board,
      (computeGameResult b).blackCount = cellColorCount b PieceColor.BLACK
      ∧ (computeGameResult b).whiteCount = cellColorCount b PieceColor.WHITE
      ∧ (computeGameResult b).winner =
          (if cellColorCount b PieceColor.BLACK >
              cellColorCount b PieceColor.WHITE
           then some PieceColor.BLACK
           else if cellColorCount b PieceColor.WHITE >
              cellColorCount b PieceColor.BLACK
           then some PieceColor.WHITE
           else none) := by
  intro b
  have hinner : ∀ acc : Nat × Nat, ∀ r : Fin 8,
      (List.finRange 8).foldl (fun acc2 c => countStep acc2 (b r c)) acc =
        ((List.finRange 8).map (b r)).foldl countStep acc :=
    fun acc r => (List.foldl_map (b r) countStep (List.finRange 8) acc).symm
  have hfold : (List.finRange 8).foldl (fun acc r =>
      (List.finRange 8).foldl (fun acc2 c => countStep acc2 (b r c)) acc)
        ((0 : Nat), (0 : Nat)) =
      (cellColorCount b PieceColor.BLACK, cellColorCount b PieceColor.WHITE) := by
    have h1 : (List.finRange 8).foldl (fun acc r =>
        (List.finRange 8).foldl (fun acc2 c => countStep acc2 (b r c)) acc)
          ((0 : Nat), (0 : Nat))
        = ((List.finRange 8).flatMap fun r =>
            (List.finRange 8).map (b r)).foldl countStep ((0 : Nat), (0 : Nat)) := by
      rw [foldl_flatMap]
      congr 1
    rw [h1, foldl_countStep, cellColorCount_eq_sum, cellColorCount_eq_sum]
    simp
  simp only [computeGameResult]
  rw [hfold]
  exact ⟨rfl, rfl, rfl⟩

/-- Witness for C8 at the initial board: both counts are 2 and there is no
winner. -/
theorem C8_computeGameResult_spec_witness :
    (computeGameResult createInitialBoard).blackCount =
      cellColorCount createInitialBoard PieceColor.BLACK
    ∧ (computeGameResult createInitialBoard).winner = none := by
  obtain ⟨h1, h2, h3⟩ := C8_computeGameResult_spec createInitialBoard
  refine ⟨h1, ?_⟩
  rw [h3]
  decide

/-- C9: `recomputeBoardFromMoves` is total and signals no error: a
non-pass entry whose `applyMove` fails, or whose row or col is null, is
silently skipped with the board and turn tracker left unchanged, and
replay continues with the remaining entries; in particular a lone illegal
move at `(0,0)` replays to the unchanged initial board. -/
theorem C9_recompute_skips_invalid :
    (∀ (m : Move) (rest : List Move) (s : Board × PieceColor),
      m.isPass = false →
      (m.row = none ∨ m.col = none ∨
        ∃ (r c : Int) (e : String), m.row = some r ∧ m.col = some c ∧
          applyMove s.1 m.color r c = .failure e) →
      List.foldl recomputeStep s (m :: rest) =
        List.foldl recomputeStep s rest)
    ∧ (∀ moves : List Move, recomputeBoardFromMoves moves =
        (List.foldl recomputeStep (createInitialBoard, PieceColor.BLACK)
          moves).1)
    ∧ recomputeBoardFromMoves
        [⟨1, PieceColor.BLACK, some 0, some 0, false⟩] = createInitialBoard := by
  have hstep : ∀ (m : Move) (s : Board × PieceColor),
      m.isPass = false →
      (m.row = none ∨ m.col = none ∨
        ∃ (r c : Int) (e : String), m.row = some r ∧ m.col = some c ∧
          applyMove s.1 m.color r c = .failure e) →
      recomputeStep s m = s := by
    intro m s hp hbad
    rw [recomputeStep, if_neg (by simp [hp])]
    rcases hbad with hr | hc | ⟨r, c, e, hr, hc, hf⟩
    · rw [hr]
    · rw [hc]
      cases hrr : m.row <;> rfl
    · rw [hr, hc]
      show (match applyMove s.1 m.color r c with
        | .success st => (st.board, st.nextTurnColor)
        | .failure _ => s) = s
      rw [hf]
  refine ⟨?_, fun moves => rfl, ?_⟩
  · intro m rest s hp hbad
    rw [List.foldl_cons, hstep m s hp hbad]
  · have h := hstep ⟨1, PieceColor.BLACK, some 0, some 0, false⟩
      (createInitialBoard, PieceColor.BLACK) rfl
      (Or.inr (Or.inr ⟨0, 0, "Illegal move", rfl, rfl, by decide⟩))
    show (List.foldl recomputeStep (createInitialBoard, PieceColor.BLACK)
      [⟨1, PieceColor.BLACK, some 0, some 0, false⟩]).1 = createInitialBoard
    rw [List.foldl_cons, h]
    rfl

/-- Witness for C9: skipping a concrete illegal entry. -/
theorem C9_recompute_skips_invalid_witness :
    List.foldl recomputeStep (createInitialBoard, PieceColor.BLACK)
      [⟨1, PieceColor.BLACK, some 0, some 0, false⟩] =
    List.foldl recomputeStep (createInitialBoard, PieceColor.BLACK) [] :=
  C9_recompute_skips_invalid.1 _ [] _ rfl
    (Or.inr (Or.inr ⟨0, 0, "Illegal move", rfl, rfl, by decide⟩))

/-- C3: for every board, color, and in-range empty target cell where at
least one direction carries a non-empty qualifying run, `applyMove`
succeeds; the new board has the target set to the mover's color, each
direction's qualifying run — the contiguous opponent pieces starting
adjacent to the target and terminated in bounds by a same-color piece,
evaluated on the original pre-move board — flipped to the mover's color,
and every cell outside the target and the flipped runs unchanged; the
success state carries `nextTurnColor = opponent(color)` and
`isFinished = false`. -/
theorem C3_applyMove_flips_runs :
    ∀ (b : Board) (color : PieceColor) (row col : Int),
      isValidPosition row col →
      cellAt b row col = none →
      (∃ d ∈ DIRECTIONS, ∃ n : Nat, 1 ≤ n ∧ runSpec b row col color d n) →
      ∃ st, applyMove b color row col = .success st
        ∧ st.nextTurnColor = getOpponentColor color
        ∧ st.isFinished = false
        ∧ cellAt st.board row col = some color
        ∧ (∀ d ∈ DIRECTIONS, ∀ n : Nat, 1 ≤ n → runSpec b row col color d n →
            checkDirection b row col color d = runPositions row col d n
            ∧ ∀ p ∈ runPositions row col d n,
                cellAt st.board p.1 p.2 = some color)
        ∧ (∀ r c : Int, (r, c) ≠ (row, col) →
            (∀ d ∈ DIRECTIONS, (r, c) ∉ checkDirection b row col color d) →
            cellAt st.board r c = cellAt b r c)
        ∧ (∀ d ∈ DIRECTIONS, checkDirection b row col color d ≠ [] →
            runSpec b row col color d
              (checkDirection b row col color d).length) := by
  intro b color row col hval hempty hrun
  obtain ⟨d0, hd0, n0, hn0, hrs0⟩ := hrun
  have hck0 : checkDirection b row col color d0 = runPositions row col d0 n0 :=
    checkDirection_eq_of_runSpec hd0 hn0 hrs0
  have hne0 : checkDirection b row col color d0 ≠ [] := by
    rw [hck0, runPositions]
    intro hc
    have := congrArg List.length hc
    simp at this
    omega
  have hleg : isLegalMove b row col color = true :=
    isLegalMove_iff.mpr ⟨hval, hempty, d0, hd0, hne0⟩
  obtain ⟨st, hst⟩ := applyMove_success_exists hleg
  obtain ⟨-, -, hnext, hfin, hcells⟩ := applyMove_success_inv hst
  refine ⟨st, hst, hnext, hfin, ?_, ?_, ?_, ?_⟩
  · rw [hcells row col, if_pos ⟨hval, Or.inl ⟨rfl, rfl⟩⟩]
  · intro d hd n hn hrs
    have hck : checkDirection b row col color d = runPositions row col d n :=
      checkDirection_eq_of_runSpec hd hn hrs
    refine ⟨hck, ?_⟩
    intro p hp
    have hpvalid : isValidPosition p.1 p.2 := by
      rw [runPositions] at hp
      obtain ⟨k, hk, hpk⟩ := List.mem_map.mp hp
      rw [List.mem_range] at hk
      have hcell := hrs.1 k hk
      rw [← hpk]
      exact cellAt_eq_some_valid hcell
    rw [hcells p.1 p.2, if_pos]
    refine ⟨hpvalid, Or.inr ⟨d, hd, ?_⟩⟩
    rw [hck, Prod.mk.eta]
    exact hp
  · intro r c hne hnotin
    rw [hcells r c, if_neg]
    rintro ⟨-, htgt | ⟨d, hd, hmem⟩⟩
    · exact hne (by rw [htgt.1, htgt.2])
    · exact hnotin d hd hmem
  · intro d hd hne
    exact (runSpec_of_checkDirection hne).2.1

/-- Witness for C3: Black's legal opening move at `(2,3)` on the initial
board, whose downward run `{(3,3)}` is flipped. -/
theorem C3_applyMove_flips_runs_witness :
    ∃ st, applyMove createInitialBoard PieceColor.BLACK 2 3 =
        ApplyMoveResult.success st
      ∧ cellAt st.board 2 3 = some PieceColor.BLACK := by
  obtain ⟨st, h1, h2, h3, h4, h5, h6, h7⟩ :=
    C3_applyMove_flips_runs createInitialBoard PieceColor.BLACK 2 3
      (by decide) (by decide) ⟨⟨1, 0⟩, by decide, 1, by decide, by decide⟩
  exact ⟨st, h1, h4⟩

theorem checkDirection_mem_opp {b : Board} {row col : Int}
    {color : PieceColor} {d : Direction} {p : Int × Int}
    (hp : p ∈ checkDirection b row col color d) :
    cellAt b p.1 p.2 = some (getOpponentColor color) := by
  by_cases hne : checkDirection b row col color d = []
  · rw [hne] at hp
    simp at hp
  · obtain ⟨-, hrs, heq⟩ := runSpec_of_checkDirection hne
    rw [heq, runPositions] at hp
    obtain ⟨k, hk, hpk⟩ := List.mem_map.mp hp
    rw [List.mem_range] at hk
    rw [← hpk]
    exact hrs.1 k hk

theorem applyMove_occupied_succ {b : Board} {color : PieceColor}
    {row col : Int} {st : GameState}
    (h : applyMove b color row col = .success st) :
    occupiedCount st.board = occupiedCount b + 1 := by
  obtain ⟨hval, hleg, -, -, hcells⟩ := applyMove_success_inv h
  have hempty : cellAt b row col = none := (isLegalMove_iff.mp hleg).2.1
  have h1 := hval.1
  have h2 := hval.2.1
  have h3 := hval.2.2.1
  have h4 := hval.2.2.2
  have hocc : ∀ x : Board, occupiedCount x = ∑ p : Fin 8 × Fin 8,
      (if cellAt x ((p.1 : Nat) : Int) ((p.2 : Nat) : Int) ≠ none
       then 1 else 0) := by
    intro x
    rw [occupiedCount]
    apply Finset.sum_congr rfl
    intro p hp
    rw [cellAt_coe]
  have htrow : ((((⟨row.toNat, by omega⟩ : Fin 8) : Nat)) : Int) = row := by
    simp only [Fin.val_mk]
    omega
  have htcol : ((((⟨col.toNat, by omega⟩ : Fin 8) : Nat)) : Int) = col := by
    simp only [Fin.val_mk]
    omega
  have hkey : ∀ p : Fin 8 × Fin 8,
      p ≠ ((⟨row.toNat, by omega⟩, ⟨col.toNat, by omega⟩) : Fin 8 × Fin 8) →
      (if cellAt st.board ((p.1 : Nat) : Int) ((p.2 : Nat) : Int) ≠ none
        then 1 else 0 : Nat)
        = if cellAt b ((p.1 : Nat) : Int) ((p.2 : Nat) : Int) ≠ none
          then 1 else 0 := by
    intro p hp
    rw [hcells]
    by_cases hcond : isValidPosition ((p.1 : Nat) : Int) ((p.2 : Nat) : Int) ∧
        ((((p.1 : Nat) : Int) = row ∧ ((p.2 : Nat) : Int) = col) ∨
          ∃ d ∈ DIRECTIONS,
            (((p.1 : Nat) : Int), ((p.2 : Nat) : Int)) ∈
              checkDirection b row col color d)
    · rw [if_pos hcond]
      rcases hcond.2 with htc | ⟨d, hd, hmem⟩
      · exfalso
        apply hp
        have e1 : p.1 = (⟨row.toNat, by omega⟩ : Fin 8) := by
          apply Fin.ext
          have := htc.1
          simp only [Fin.val_mk]
          omega
        have e2 : p.2 = (⟨col.toNat, by omega⟩ : Fin 8) := by
          apply Fin.ext
          have := htc.2
          simp only [Fin.val_mk]
          omega
        rw [← e1, ← e2]
      · have hopp := checkDirection_mem_opp hmem
        simp only at hopp
        rw [hopp]
        simp
    · rw [if_neg hcond]
  have hpoint : ∀ p : Fin 8 × Fin 8,
      (if cellAt st.board ((p.1 : Nat) : Int) ((p.2 : Nat) : Int) ≠ none
        then 1 else 0 : Nat)
        = (if cellAt b ((p.1 : Nat) : Int) ((p.2 : Nat) : Int) ≠ none
            then 1 else 0 : Nat)
          + (if p = ((⟨row.toNat, by omega⟩, ⟨col.toNat, by omega⟩) :
              Fin 8 × Fin 8) then 1 else 0) := by
    intro p
    by_cases hp : p = ((⟨row.toNat, by omega⟩, ⟨col.toNat, by omega⟩) :
        Fin 8 × Fin 8)
    · have e1 : ((p.1 : Nat) : Int) = row := by rw [hp]; exact htrow
      have e2 : ((p.2 : Nat) : Int) = col := by rw [hp]; exact htcol
      have hca : cellAt st.board ((p.1 : Nat) : Int) ((p.2 : Nat) : Int) =
          some color := by
        rw [hcells]
        exact if_pos ⟨by rw [e1, e2]; exact hval, Or.inl ⟨e1, e2⟩⟩
      have hA : (if cellAt st.board ((p.1 : Nat) : Int) ((p.2 : Nat) : Int) ≠
          none then 1 else 0 : Nat) = 1 := by
        rw [hca]
        simp
      have hB : (if cellAt b ((p.1 : Nat) : Int) ((p.2 : Nat) : Int) ≠ none
          then 1 else 0 : Nat) = 0 := by
        rw [e1, e2, hempty]
        simp
      have hC : (if p = ((⟨row.toNat, by omega⟩, ⟨col.toNat, by omega⟩) :
          Fin 8 × Fin 8) then (1 : Nat) else 0) = 1 := if_pos hp
      omega
    · have hAB := hkey p hp
      have hC : (if p = ((⟨row.toNat, by omega⟩, ⟨col.toNat, by omega⟩) :
          Fin 8 × Fin 8) then (1 : Nat) else 0) = 0 := if_neg hp
      omega
  rw [hocc st.board, hocc b]
  have hsum : ∑ p : Fin 8 × Fin 8,
      (if cellAt st.board ((p.1 : Nat) : Int) ((p.2 : Nat) : Int) ≠ none
        then 1 else 0 : Nat)
      = ∑ p : Fin 8 × Fin 8,
        ((if cellAt b ((p.1 : Nat) : Int) ((p.2 : Nat) : Int) ≠ none
            then 1 else 0 : Nat)
          + (if p = ((⟨row.toNat, by omega⟩, ⟨col.toNat, by omega⟩) :
              Fin 8 × Fin 8) then 1 else 0)) :=
    Finset.sum_congr rfl (fun p _ => hpoint p)
  rw [hsum, Finset.sum_add_distrib, Finset.sum_ite_eq' Finset.univ _
    (fun _ => (1 : Nat))]
  simp

/-- C10: every successful `applyMove` leaves exactly one more occupied
cell (the target, previously empty), never empties an occupied cell, and
every other changed cell flips from the opponent's color to the mover's
color; hence the total piece count rises by exactly one. -/
theorem C10_applyMove_piece_delta :
    ∀ (b : Board) (color : PieceColor) (row col : Int) (st : GameState),
      applyMove b color row col = .success st →
      cellAt b row col = none
      ∧ cellAt st.board row col = some color
      ∧ (∀ r c : Int, cellAt b r c ≠ none →
          cellAt st.board r c = cellAt b r c ∨
            (cellAt b r c = some (getOpponentColor color) ∧
              cellAt st.board r c = some color))
      ∧ (∀ r c : Int, (r, c) ≠ (row, col) →
          cellAt st.board r c ≠ cellAt b r c →
          cellAt b r c = some (getOpponentColor color) ∧
            cellAt st.board r c = some color)
      ∧ occupiedCount st.board = occupiedCount b + 1 := by
  intro b color row col st h
  obtain ⟨hval, hleg, -, -, hcells⟩ := applyMove_success_inv h
  have hempty : cellAt b row col = none := (isLegalMove_iff.mp hleg).2.1
  refine ⟨hempty, ?_, ?_, ?_, applyMove_occupied_succ h⟩
  · rw [hcells row col, if_pos ⟨hval, Or.inl ⟨rfl, rfl⟩⟩]
  · intro r c hocc
    rw [hcells r c]
    by_cases hcond : isValidPosition r c ∧ ((r = row ∧ c = col) ∨
        ∃ d ∈ DIRECTIONS, (r, c) ∈ checkDirection b row col color d)
    · rw [if_pos hcond]
      rcases hcond.2 with htc | ⟨d, hd, hmem⟩
      · exfalso
        apply hocc
        rw [htc.1, htc.2]
        exact hempty
      · exact Or.inr ⟨checkDirection_mem_opp hmem, rfl⟩
    · rw [if_neg hcond]
      exact Or.inl rfl
  · intro r c hne hch
    rw [hcells r c] at hch ⊢
    by_cases hcond : isValidPosition r c ∧ ((r = row ∧ c = col) ∨
        ∃ d ∈ DIRECTIONS, (r, c) ∈ checkDirection b row col color d)
    · rw [if_pos hcond]
      rcases hcond.2 with htc | ⟨d, hd, hmem⟩
      · exact absurd (by rw [htc.1, htc.2]) hne
      · exact ⟨checkDirection_mem_opp hmem, rfl⟩
    · rw [if_neg hcond] at hch
      exact absurd rfl hch

/-- Witness for C10: Black's opening move at `(2,3)` raises the occupied
count of the initial board by one. -/
theorem C10_applyMove_piece_delta_witness :
    ∃ st, applyMove createInitialBoard PieceColor.BLACK 2 3 =
        ApplyMoveResult.success st
      ∧ occupiedCount st.board = occupiedCount createInitialBoard + 1 := by
  obtain ⟨st, hst⟩ := applyMove_success_exists
    (show isLegalMove createInitialBoard 2 3 PieceColor.BLACK = true by decide)
  exact ⟨st, hst,
    (C10_applyMove_piece_delta _ _ _ _ _ hst).2.2.2.2⟩

/-! ### Valid logs and prefix consistency -/

theorem validFrom_take :
    ∀ (L : List Move) (k : Nat) (b : Board) (e : PieceColor),
      validFrom b e L = true → validFrom b e (L.take k) = true := by
  intro L
  induction L with
  | nil =>
    intro k b e h
    simpa using h
  | cons m rest ih =>
    intro k b e h
    cases k with
    | zero => rfl
    | succ n =>
      rw [List.take_succ_cons]
      rw [validFrom] at h ⊢
      by_cases hcne : m.color ≠ e
      · rw [if_pos hcne] at h
        exact absurd h (by simp)
      · rw [if_neg hcne] at h ⊢
        by_cases hpass : m.isPass = true
        · rw [if_pos hpass] at h ⊢
          rw [Bool.and_eq_true] at h ⊢
          exact ⟨h.1, ih n _ _ h.2⟩
        · rw [if_neg hpass] at h ⊢
          cases hr : m.row with
          | none =>
            rw [hr] at h
            cases hcl : m.col with
            | none => rw [hcl] at h; simp at h
            | some c => rw [hcl] at h; simp at h
          | some r =>
            cases hcl : m.col with
            | none =>
              rw [hr, hcl] at h
              simp at h
            | some c =>
              rw [hr, hcl] at h
              cases happ : applyMove b e r c with
              | failure msg =>
                simp only [happ] at h
                simp at h
              | success st =>
                simp only [happ] at h ⊢
                exact ih n _ _ h

/-- On a valid log, the trusted replay fold and the spec-side live-session
fold agree step by step (the replay uses the recorded `move.color`, the
live session its own turn tracker; validity makes them coincide). -/
theorem recompute_foldl_eq_live :
    ∀ (L : List Move) (b : Board) (e : PieceColor),
      validFrom b e L = true →
      List.foldl recomputeStep (b, e) L = List.foldl liveStepValid (b, e) L := by
  intro L
  induction L with
  | nil => intro b e h; rfl
  | cons m rest ih =>
    intro b e h
    rw [validFrom] at h
    by_cases hcne : m.color ≠ e
    · rw [if_pos hcne] at h
      exact absurd h (by simp)
    · rw [if_neg hcne] at h
      push_neg at hcne
      by_cases hpass : m.isPass = true
      · rw [if_pos hpass] at h
        rw [Bool.and_eq_true] at h
        rw [List.foldl_cons, List.foldl_cons]
        have hstep1 : recomputeStep (b, e) m = (b, getOpponentColor e) := by
          rw [recomputeStep, if_pos hpass]
        have hstep2 : liveStepValid (b, e) m = (b, getOpponentColor e) := by
          rw [liveStepValid, if_pos hpass]
        rw [hstep1, hstep2]
        exact ih _ _ h.2
      · rw [if_neg hpass] at h
        cases hr : m.row with
        | none =>
          rw [hr] at h
          cases hcl : m.col with
          | none => rw [hcl] at h; simp at h
          | some c => rw [hcl] at h; simp at h
        | some r =>
          cases hcl : m.col with
          | none =>
            rw [hr, hcl] at h
            simp at h
          | some c =>
            rw [hr, hcl] at h
            cases happ : applyMove b e r c with
            | failure msg =>
              simp only [happ] at h
              simp at h
            | success st =>
              simp only [happ] at h
              rw [List.foldl_cons, List.foldl_cons]
              have hstep1 : recomputeStep (b, e) m =
                  (st.board, st.nextTurnColor) := by
                rw [recomputeStep, if_neg hpass]
                simp only [hr, hcl, hcne, happ]
              have hstep2 : liveStepValid (b, e) m =
                  (st.board, st.nextTurnColor) := by
                rw [liveStepValid, if_neg hpass]
                simp only [hr, hcl, happ]
              have hnx := (applyMove_success_inv happ).2.2.1
              rw [hstep1, hstep2, hnx]
              exact ih _ _ h

/-- C4: for every valid log `L` (every entry legal and turn-consistent by
construction) and every `k ≤ |L|`, replaying the prefix `L.take k` with
`recomputeBoardFromMoves` yields exactly the board obtained by applying
the first `k` moves one at a time from the initial position (passes
leaving the board unchanged); the empty log replays to
`createInitialBoard()` with derived `nextTurnColor = Black` and
`isFinished = false`. -/
theorem C4_prefix_consistency :
    (∀ L : List Move, validFrom createInitialBoard PieceColor.BLACK L = true →
      ∀ k : Nat, k ≤ L.length →
        recomputeBoardFromMoves (L.take k) =
          (List.foldl liveStepValid (createInitialBoard, PieceColor.BLACK)
            (L.take k)).1)
    ∧ recomputeBoardFromMoves [] = createInitialBoard
    ∧ createGameStateFromBoard (recomputeBoardFromMoves []) [] =
        ⟨createInitialBoard, PieceColor.BLACK, false⟩ := by
  refine ⟨?_, rfl, ?_⟩
  · intro L hL k hk
    have hLk := validFrom_take L k createInitialBoard PieceColor.BLACK hL
    exact congrArg Prod.fst
      (recompute_foldl_eq_live (L.take k) createInitialBoard PieceColor.BLACK
        hLk)
  · rw [show recomputeBoardFromMoves [] = createInitialBoard from rfl,
      createGameStateFromBoard]
    rw [show deriveNextTurnColor [] = PieceColor.BLACK from rfl,
      show derivePreviousTurnColor [] = PieceColor.WHITE from rfl]
    rw [show isGameFinished createInitialBoard PieceColor.BLACK
      PieceColor.WHITE = false by decide]

/-- Witness for C4: the one-move log of Black's legal opening at `(2,3)`
is valid, and its prefix of length 1 replays to the live-session board. -/
theorem C4_prefix_consistency_witness :
    validFrom createInitialBoard PieceColor.BLACK
      [⟨1, PieceColor.BLACK, some 2, some 3, false⟩] = true
    ∧ recomputeBoardFromMoves
        ([⟨1, PieceColor.BLACK, some 2, some 3, false⟩].take 1) =
      (List.foldl liveStepValid (createInitialBoard, PieceColor.BLACK)
        ([⟨1, PieceColor.BLACK, some 2, some 3, false⟩].take 1)).1 :=
  ⟨by decide, C4_prefix_consistency.1 _ (by decide) 1 (by decide)⟩

/-! ### Validated replay (modelled from the spec) -/

theorem getOpponentColor_involutive (c : PieceColor) :
    getOpponentColor (getOpponentColor c) = c := by
  cases c <;> rfl

/-- Any `TurnMismatch` produced by validated replay names the position of
the offending move, the expected color there is the alternation of the
starting expectation, and the actual color is the move's color. -/
theorem replayValidated_turnMismatch_inv :
    ∀ (ms : List Move) (b : Board) (e : PieceColor) (i j : Nat)
      (ee aa : PieceColor),
      replayValidatedAux ms b e i = .error (.TurnMismatch j ee aa) →
      ∃ k, j = i + k ∧
        ee = (if k % 2 = 0 then e else getOpponentColor e) ∧
        ∃ m, ms.get? k = some m ∧ aa = m.color ∧ m.color ≠ ee := by
  intro ms
  induction ms with
  | nil =>
    intro b e i j ee aa h
    rw [replayValidatedAux] at h
    exact absurd h (by simp)
  | cons m rest ih =>
    intro b e i j ee aa h
    rw [replayValidatedAux] at h
    by_cases hcne : m.color ≠ e
    · rw [if_pos hcne] at h
      injection h with h'
      injection h' with h1 h2 h3
      refine ⟨0, by omega, ?_, m, by simp, h3.symm, h2 ▸ hcne⟩
      simp only [Nat.zero_mod, if_pos rfl]
      exact h2.symm
    · rw [if_neg hcne] at h
      push_neg at hcne
      by_cases hpass : m.isPass = true
      · rw [if_pos hpass] at h
        by_cases hcan : canPass b e = true
        · rw [if_pos hcan] at h
          obtain ⟨k, hk1, hk2, m', hm1, hm2, hm3⟩ := ih _ _ _ _ _ _ h
          refine ⟨k + 1, by omega, ?_, m', by simpa using hm1, hm2, hm3⟩
          by_cases hk : k % 2 = 0
          · rw [if_neg (by omega), hk2, if_pos hk]
          · rw [if_pos (by omega), hk2, if_neg hk, getOpponentColor_involutive]
        · rw [if_neg hcan] at h
          exact absurd h (by simp)
      · rw [if_neg hpass] at h
        cases hr : m.row with
        | none =>
          rw [hr] at h
          cases hcl : m.col with
          | none => rw [hcl] at h; exact absurd h (by simp)
          | some c => rw [hcl] at h; exact absurd h (by simp)
        | some r =>
          cases hcl : m.col with
          | none =>
            rw [hr, hcl] at h
            exact absurd h (by simp)
          | some c =>
            rw [hr, hcl] at h
            cases happ : applyMove b e r c with
            | failure msg =>
              simp only [happ] at h
              exact absurd h (by simp)
            | success st =>
              simp only [happ] at h
              obtain ⟨k, hk1, hk2, m', hm1, hm2, hm3⟩ := ih _ _ _ _ _ _ h
              refine ⟨k + 1, by omega, ?_, m', by simpa using hm1, hm2, hm3⟩
              by_cases hk : k % 2 = 0
              · rw [if_neg (by omega), hk2, if_pos hk]
              · rw [if_pos (by omega), hk2, if_neg hk,
                  getOpponentColor_involutive]

/-- C1 (validator modelled from the spec, §4.4): validated replay starts
from the standard initial board with `expectedColor = Black`; whenever the
head move's color differs from the expected color it fails immediately
with `TurnMismatch` naming the index and both colors; every `TurnMismatch`
the validator ever reports names a real move whose color differs from the
alternating expected color at its 1-based index; and the log
`[{1, White, (2,3), false}]` fails with `TurnMismatch` at index 1. -/
theorem C1_validated_turn_mismatch :
    (∀ ms : List Move, recomputeBoardFromMovesValidated ms =
        replayValidatedAux ms createInitialBoard PieceColor.BLACK 1)
    ∧ (∀ (m : Move) (rest : List Move) (b : Board) (e : PieceColor) (i : Nat),
        m.color ≠ e →
        replayValidatedAux (m :: rest) b e i =
          .error (.TurnMismatch i e m.color))
    ∧ (∀ (ms : List Move) (j : Nat) (ee aa : PieceColor),
        recomputeBoardFromMovesValidated ms =
          .error (.TurnMismatch j ee aa) →
        1 ≤ j ∧ ee = expectedColorAt j ∧
          ∃ m, ms.get? (j - 1) = some m ∧ aa = m.color ∧ m.color ≠ ee)
    ∧ recomputeBoardFromMovesValidated
        [⟨1, PieceColor.WHITE, some 2, some 3, false⟩] =
      .error (.TurnMismatch 1 PieceColor.BLACK PieceColor.WHITE) := by
  refine ⟨fun ms => rfl, ?_, ?_, rfl⟩
  · intro m rest b e i hne
    rw [replayValidatedAux, if_pos hne]
  · intro ms j ee aa h
    obtain ⟨k, hk1, hk2, m, hm1, hm2, hm3⟩ :=
      replayValidated_turnMismatch_inv ms createInitialBoard PieceColor.BLACK
        1 j ee aa h
    refine ⟨by omega, ?_, m, ?_, hm2, hm3⟩
    · rw [expectedColorAt, hk2]
      by_cases hk : k % 2 = 0
      · rw [if_pos hk, if_pos (by omega)]
      · rw [if_neg hk, if_neg (by omega)]
        rfl
    · rw [show j - 1 = k by omega]
      exact hm1

/-- Witness for C1: the wrong-color opening move is rejected with
`TurnMismatch` at index 1 naming expected Black, actual White. -/
theorem C1_validated_turn_mismatch_witness :
    replayValidatedAux [⟨1, PieceColor.WHITE, some 2, some 3, false⟩]
      createInitialBoard PieceColor.BLACK 1 =
    .error (.TurnMismatch 1 PieceColor.BLACK PieceColor.WHITE) :=
  C1_validated_turn_mismatch.2.1 ⟨1, PieceColor.WHITE, some 2, some 3, false⟩
    [] createInitialBoard PieceColor.BLACK 1 (by decide)

/-- C2 (validator modelled from the spec, §4.4): a pass entry is accepted
exactly when the expected mover has zero legal moves (`canPass`, which is
equivalent to `getLegalMoves` being empty), in which case replay continues
on the unchanged board with the turn flipped; otherwise replay fails
immediately — for every suffix — with `InvalidPassClaim` naming the index,
committing nothing; in particular `[{1, Black, null, true}]` fails with
`InvalidPassClaim` at index 1. -/
theorem C2_validated_pass_claims :
    (∀ (b : Board) (e : PieceColor),
      canPass b e = true ↔ (getLegalMoves b e).length = 0)
    ∧ (∀ (m : Move) (rest : List Move) (b : Board) (e : PieceColor) (i : Nat),
        m.color = e → m.isPass = true → canPass b e = true →
        replayValidatedAux (m :: rest) b e i =
          replayValidatedAux rest b (getOpponentColor e) (i + 1))
    ∧ (∀ (m : Move) (rest : List Move) (b : Board) (e : PieceColor) (i : Nat),
        m.color = e → m.isPass = true → canPass b e = false →
        replayValidatedAux (m :: rest) b e i =
          .error (.InvalidPassClaim i))
    ∧ recomputeBoardFromMovesValidated
        [⟨1, PieceColor.BLACK, none, none, true⟩] =
      .error (.InvalidPassClaim 1) := by
  refine ⟨?_, ?_, ?_, rfl⟩
  · intro b e
    rw [canPass, beq_iff_eq]
  · intro m rest b e i hc hpass hcan
    rw [replayValidatedAux, if_neg (not_not_intro hc), if_pos hpass,
      if_pos hcan]
  · intro m rest b e i hc hpass hcan
    rw [replayValidatedAux, if_neg (not_not_intro hc), if_pos hpass,
      if_neg (by simp [hcan])]

/-- Witness for C2: a pass by Black on the initial board (where Black has
legal moves) is rejected with `InvalidPassClaim` at index 1. -/
theorem C2_validated_pass_claims_witness :
    replayValidatedAux [⟨1, PieceColor.BLACK, none, none, true⟩]
      createInitialBoard PieceColor.BLACK 1 =
    .error (.InvalidPassClaim 1) :=
  C2_validated_pass_claims.2.2.1 ⟨1, PieceColor.BLACK, none, none, true⟩
    [] createInitialBoard PieceColor.BLACK 1 rfl rfl (by decide)

end Othello
